import Mathlib

/-!
Verification of the binstr digit-string codec (src/main.rs).

Bytes are modelled as natural numbers (meaningful values are < 256), bits as
booleans, and the decoded text seen by `BinMsg::read` as a list of characters.
Fallible Rust functions returning `anyhow::Result` are modelled with `Except`
over an error type carrying the same data as the source's error messages.
-/

set_option maxRecDepth 8000

deriving instance DecidableEq for Except

namespace Binstr

/-- Constant `BYTE_SIZE` from src/main.rs line 10. -/
def BYTE_SIZE : Nat := 8

/-- Error cases produced by the codec: `invalidDigit` embeds the bail
"Encountered non-binary digit {c}" and `invalidLength` embeds the bail
"Number of binary digits must be a multiple of {m}, got {a}". -/
inductive BinError where
  | invalidDigit (c : Char)
  | invalidLength (multiple actual : Nat)
deriving DecidableEq, Repr

/-- Function `str_to_bits` (src/main.rs lines 96-106): pushes `true` for '1',
`false` for '0', in order, and bails on the first other character. -/
def str_to_bits : List Char → Except BinError (List Bool)
  | [] => .ok []
  | c :: rest =>
    if c = '1' then (str_to_bits rest).map (fun bs => true :: bs)
    else if c = '0' then (str_to_bits rest).map (fun bs => false :: bs)
    else .error (.invalidDigit c)

/-- Function `bits_to_str` (src/main.rs lines 108-112): maps each bit to its
digit character and concatenates. -/
def bits_to_str (bits : List Bool) : List Char :=
  bits.map (fun bit => if bit then '1' else '0')

/-- Function `bit_slice_to_arrays` (src/main.rs lines 114-123):
`chunks_exact(BYTE_SIZE)` with `BYTE_SIZE = 8`, collecting each full chunk
into an 8-element array; a trailing remainder shorter than 8 is not yielded.
The structural pattern of exactly eight elements is the unrolled chunk. -/
def bit_slice_to_arrays : List Bool → List (List Bool)
  | b0 :: b1 :: b2 :: b3 :: b4 :: b5 :: b6 :: b7 :: rest =>
      [b0, b1, b2, b3, b4, b5, b6, b7] :: bit_slice_to_arrays rest
  | _ => []

/-- Function `bits_to_byte` (src/main.rs lines 125-130): reverses the 8 bits,
enumerates, and folds `acc | ((bit as u8) << i)`. -/
def bits_to_byte (bits : List Bool) : Nat :=
  (bits.reverse.enum).foldl (fun acc p => acc ||| ((if p.2 then 1 else 0) <<< p.1)) 0

/-- Function `byte_to_bits` (src/main.rs lines 132-141): the tests
`byte & (1 << i) != 0` for `i in (0..BYTE_SIZE).rev()`, collected in order. -/
def byte_to_bits (byte : Nat) : List Bool :=
  ((List.range BYTE_SIZE).reverse).map (fun i => byte &&& (1 <<< i) != 0)

/-- UTF-8 byte length of a decoded string, as Rust's `String::len` computes it
for the `strbuf` read by `BinMsg::read`. -/
def utf8Len (s : List Char) : Nat := (s.map Char.utf8Size).sum

/-- Method `BinMsg::read` (src/main.rs lines 62-83), after `read_to_string`
has produced the decoded text `strbuf`: checks `strbuf.len() % BYTE_SIZE`
(UTF-8 byte length) first, then runs `str_to_bits`, `bit_slice_to_arrays`
and `bits_to_byte` per chunk. -/
def BinMsg.read (strbuf : List Char) : Except BinError (List Nat) :=
  let slen := utf8Len strbuf
  if slen % BYTE_SIZE ≠ 0 then
    .error (.invalidLength BYTE_SIZE slen)
  else
    (str_to_bits strbuf).map (fun all_bits =>
      (bit_slice_to_arrays all_bits).map (fun bits => bits_to_byte bits))

/-- Method `BinMsg::write` (src/main.rs lines 85-93): flat-maps `byte_to_bits`
over the message's bytes and renders the digit string with `bits_to_str`
(the string whose bytes are written to the sink). -/
def BinMsg.write (msg : List Nat) : List Char :=
  bits_to_str (msg.flatMap (fun b => byte_to_bits b))

/-- Loop body of `strip_trailing_whitespace` (src/main.rs lines 31-37), run on
the reversed byte vector: the source pops the last byte while the vector ends
with `n` or with `r`. The source binds `n = '\n' as u8` and `r = '\n' as u8`,
so both comparands are byte 10 (the second binding, despite its name, is also
a newline, not a carriage return). -/
def stripLoop (n r : Nat) : List Nat → List Nat
  | [] => []
  | b :: rest => if b = n ∨ b = r then stripLoop n r rest else b :: rest

/-- Function `strip_trailing_whitespace` (src/main.rs lines 31-37), acting on
the byte vector; `10 = '\n' as u8` is passed for both `n` and `r`, exactly as
the source assigns them. -/
def strip_trailing_whitespace (v : List Nat) : List Nat :=
  (stripLoop 10 10 v.reverse).reverse

/-- Modelling the UTF-8 encoding of one unicode scalar value, as Rust's
`str::as_bytes` exposes it for each character of a `String` (standard-library
semantics, not repository code). -/
def utf8EncodeChar (c : Nat) : List Nat :=
  if c < 0x80 then [c]
  else if c < 0x800 then [0xC0 + c / 0x40, 0x80 + c % 0x40]
  else if c < 0x10000 then
    [0xE0 + c / 0x1000, 0x80 + c / 0x40 % 0x40, 0x80 + c % 0x40]
  else
    [0xF0 + c / 0x40000, 0x80 + c / 0x1000 % 0x40,
      0x80 + c / 0x40 % 0x40, 0x80 + c % 0x40]

/-- Modelling UTF-8 decoding of one scalar value from a byte stream with the
validation Rust's `std::str::from_utf8` performs: continuation bytes must be
in `0x80..0xBF`, overlong forms, surrogates (`0xD800..0xDFFF`) and values
above `0x10FFFF` are rejected. Returns the scalar value and remaining bytes. -/
def utf8DecodeChar : List Nat → Option (Nat × List Nat)
  | [] => none
  | b0 :: rest =>
    if b0 < 0x80 then some (b0, rest)
    else if b0 < 0xC2 then none
    else if b0 < 0xE0 then
      match rest with
      | b1 :: rest1 =>
        if 0x80 ≤ b1 ∧ b1 < 0xC0 then
          some ((b0 - 0xC0) * 0x40 + (b1 - 0x80), rest1)
        else none
      | [] => none
    else if b0 < 0xF0 then
      match rest with
      | b1 :: b2 :: rest2 =>
        if 0x80 ≤ b1 ∧ b1 < 0xC0 ∧ 0x80 ≤ b2 ∧ b2 < 0xC0 then
          if (b0 - 0xE0) * 0x1000 + (b1 - 0x80) * 0x40 + (b2 - 0x80) < 0x800
              ∨ (0xD800 ≤ (b0 - 0xE0) * 0x1000 + (b1 - 0x80) * 0x40 + (b2 - 0x80)
                  ∧ (b0 - 0xE0) * 0x1000 + (b1 - 0x80) * 0x40 + (b2 - 0x80) < 0xE000)
          then none
          else some ((b0 - 0xE0) * 0x1000 + (b1 - 0x80) * 0x40 + (b2 - 0x80), rest2)
        else none
      | _ => none
    else if b0 < 0xF5 then
      match rest with
      | b1 :: b2 :: b3 :: rest3 =>
        if 0x80 ≤ b1 ∧ b1 < 0xC0 ∧ 0x80 ≤ b2 ∧ b2 < 0xC0 ∧ 0x80 ≤ b3 ∧ b3 < 0xC0 then
          if (b0 - 0xF0) * 0x40000 + (b1 - 0x80) * 0x1000
                + (b2 - 0x80) * 0x40 + (b3 - 0x80) < 0x10000
              ∨ 0x110000 ≤ (b0 - 0xF0) * 0x40000 + (b1 - 0x80) * 0x1000
                  + (b2 - 0x80) * 0x40 + (b3 - 0x80)
          then none
          else some ((b0 - 0xF0) * 0x40000 + (b1 - 0x80) * 0x1000
              + (b2 - 0x80) * 0x40 + (b3 - 0x80), rest3)
        else none
      | _ => none
    else none

/-- Fuel-indexed UTF-8 decoding of a whole byte sequence into scalar values;
one unit of fuel per decoded character suffices since every character consumes
at least one byte. -/
def utf8Decode : Nat → List Nat → Option (List Nat)
  | _, [] => some []
  | 0, _ :: _ => none
  | fuel + 1, b :: rest =>
    match utf8DecodeChar (b :: rest) with
    | some (c, rest2) =>
      match utf8Decode fuel rest2 with
      | some cs => some (c :: cs)
      | none => none
    | none => none

/-- Modelling `std::str::from_utf8` on a byte vector: the sequence of decoded
scalar values when the bytes are valid UTF-8, `none` otherwise. -/
def from_utf8 (l : List Nat) : Option (List Nat) := utf8Decode l.length l

/-- Implementation `From<StrMsg> for BinMsg` (src/main.rs lines 165-170): the
text message's underlying bytes (`s.as_bytes()`), copied verbatim. A `StrMsg`
is modelled by its sequence of unicode scalar values. -/
def BinMsg.fromStrMsg (s : List Nat) : List Nat :=
  s.flatMap (fun c => utf8EncodeChar c)

/-- Implementation `TryFrom<BinMsg> for StrMsg` (src/main.rs lines 156-163):
`std::str::from_utf8` on the byte sequence, succeeding exactly when the bytes
are valid UTF-8. -/
def StrMsg.tryFromBinMsg (b : List Nat) : Option (List Nat) :=
  from_utf8 b

/-- A unicode scalar value: what a character of a Rust `String` can hold. -/
def isScalarValue (c : Nat) : Prop :=
  c < 0xD800 ∨ (0xE000 ≤ c ∧ c < 0x110000)

instance (c : Nat) : Decidable (isScalarValue c) := by
  unfold isScalarValue
  infer_instance

/-! Helper lemmas about the bit codec and the chunker. -/

/-- Lists shorter than 8 produce no chunk. -/
theorem bit_slice_to_arrays_short (l : List Bool) (h : l.length < 8) :
    bit_slice_to_arrays l = [] := by
  match l, h with
  | [], _ => rfl
  | [_], _ => rfl
  | [_, _], _ => rfl
  | [_, _, _], _ => rfl
  | [_, _, _, _], _ => rfl
  | [_, _, _, _, _], _ => rfl
  | [_, _, _, _, _, _], _ => rfl
  | [_, _, _, _, _, _, _], _ => rfl
  | _ :: _ :: _ :: _ :: _ :: _ :: _ :: _ :: _, h => simp at h; omega

/-- A list matching no 8-element head pattern is shorter than 8. -/
theorem length_lt_eight_of_no_head (t : List Bool)
    (h : ∀ (b0 b1 b2 b3 b4 b5 b6 b7 : Bool) (rest : List Bool),
        t = b0 :: b1 :: b2 :: b3 :: b4 :: b5 :: b6 :: b7 :: rest → False) :
    t.length < 8 := by
  match t with
  | b0 :: b1 :: b2 :: b3 :: b4 :: b5 :: b6 :: b7 :: rest =>
      exact (h b0 b1 b2 b3 b4 b5 b6 b7 rest rfl).elim
  | [] | [_] | [_, _] | [_, _, _] | [_, _, _, _] | [_, _, _, _, _]
  | [_, _, _, _, _, _] | [_, _, _, _, _, _, _] => simp

/-- The chunker yields exactly `len / 8` chunks. -/
theorem bit_slice_to_arrays_length (l : List Bool) :
    (bit_slice_to_arrays l).length = l.length / 8 := by
  induction l using bit_slice_to_arrays.induct with
  | case1 b0 b1 b2 b3 b4 b5 b6 b7 rest ih =>
      simp only [bit_slice_to_arrays, List.length_cons, ih]
      omega
  | case2 t h =>
      have hlt := length_lt_eight_of_no_head t h
      rw [bit_slice_to_arrays_short t hlt, List.length_nil]
      omega

/-- Every chunk the chunker yields has exactly 8 bits. -/
theorem bit_slice_to_arrays_mem_length (l : List Bool) :
    ∀ c ∈ bit_slice_to_arrays l, c.length = 8 := by
  induction l using bit_slice_to_arrays.induct with
  | case1 b0 b1 b2 b3 b4 b5 b6 b7 rest ih =>
      intro c hc
      rcases List.mem_cons.1 hc with hc | hc
      · subst hc; rfl
      · exact ih c hc
  | case2 t h =>
      intro c hc
      rw [bit_slice_to_arrays_short t (length_lt_eight_of_no_head t h)] at hc
      exact absurd hc (List.not_mem_nil c)

/-- Concatenating the chunks recovers the first `8 * (len / 8)` bits: the
trailing remainder is discarded and everything else is kept in order. -/
theorem bit_slice_to_arrays_join (l : List Bool) :
    (bit_slice_to_arrays l).flatten = l.take (8 * (l.length / 8)) := by
  induction l using bit_slice_to_arrays.induct with
  | case1 b0 b1 b2 b3 b4 b5 b6 b7 rest ih =>
      have hl : 8 * ((b0 :: b1 :: b2 :: b3 :: b4 :: b5 :: b6 :: b7 :: rest).length / 8)
          = 8 * (rest.length / 8) + 8 := by
        simp only [List.length_cons]
        omega
      rw [hl]
      show [b0, b1, b2, b3, b4, b5, b6, b7] ++ (bit_slice_to_arrays rest).flatten = _
      rw [ih]
      rfl
  | case2 t h =>
      have hlt := length_lt_eight_of_no_head t h
      rw [bit_slice_to_arrays_short t hlt]
      have : 8 * (t.length / 8) = 0 := by omega
      rw [this, List.take_zero]
      rfl

/-- Chunking a concatenation of 8-bit groups recovers exactly those groups. -/
theorem bit_slice_to_arrays_of_join (ls : List (List Bool))
    (h : ∀ l ∈ ls, l.length = 8) :
    bit_slice_to_arrays ls.flatten = ls := by
  induction ls with
  | nil => rfl
  | cons l ls ih =>
      have hl : l.length = 8 := h l (List.mem_cons_self l ls)
      have hrest : ∀ l' ∈ ls, l'.length = 8 :=
        fun l' hl' => h l' (List.mem_cons_of_mem l hl')
      match l, hl with
      | [a0, a1, a2, a3, a4, a5, a6, a7], _ =>
          exact congrArg (List.cons [a0, a1, a2, a3, a4, a5, a6, a7]) (ih hrest)

/-- When the whole length is a multiple of 8, joining the chunks is the
identity. -/
theorem join_bit_slice_to_arrays (l : List Bool) (h : l.length % 8 = 0) :
    (bit_slice_to_arrays l).flatten = l := by
  rw [bit_slice_to_arrays_join]
  have : 8 * (l.length / 8) = l.length := by omega
  rw [this, List.take_length]

/-- On a string of binary digits, `str_to_bits` succeeds with '1' mapped to
`true` and '0' to `false`, in order. -/
theorem str_to_bits_valid (s : List Char) (h : ∀ c ∈ s, c = '0' ∨ c = '1') :
    str_to_bits s = .ok (s.map (fun c => c == '1')) := by
  induction s with
  | nil => rfl
  | cons c rest ih =>
      have hrest : ∀ c' ∈ rest, c' = '0' ∨ c' = '1' :=
        fun c' hc' => h c' (List.mem_cons_of_mem c hc')
      rcases h c (List.mem_cons_self c rest) with hc | hc <;>
        subst hc <;> simp [str_to_bits, ih hrest, Except.map]

/-- Parsing the rendering of a bit list recovers the bit list. -/
theorem str_to_bits_bits_to_str (bits : List Bool) :
    str_to_bits (bits_to_str bits) = .ok bits := by
  induction bits with
  | nil => rfl
  | cons b rest ih =>
      cases b <;> simp [bits_to_str, str_to_bits, Except.map] <;>
        simp [bits_to_str] at ih <;> simp [ih, Except.map]

/-- Rendering the bits of a digit string recovers the digit string. -/
theorem bits_to_str_valid (s : List Char) (h : ∀ c ∈ s, c = '0' ∨ c = '1') :
    bits_to_str (s.map (fun c => c == '1')) = s := by
  induction s with
  | nil => rfl
  | cons c rest ih =>
      have hrest : ∀ c' ∈ rest, c' = '0' ∨ c' = '1' :=
        fun c' hc' => h c' (List.mem_cons_of_mem c hc')
      rcases h c (List.mem_cons_self c rest) with hc | hc <;>
        subst hc <;> simp [bits_to_str, List.map_cons] <;>
        simpa [bits_to_str] using ih hrest

/-- Digit characters are one UTF-8 byte each, so a digit string's byte length
is its character count. -/
theorem utf8Len_valid (s : List Char) (h : ∀ c ∈ s, c = '0' ∨ c = '1') :
    utf8Len s = s.length := by
  induction s with
  | nil => rfl
  | cons c rest ih =>
      have hrest : ∀ c' ∈ rest, c' = '0' ∨ c' = '1' :=
        fun c' hc' => h c' (List.mem_cons_of_mem c hc')
      have ih' := ih hrest
      have hsize : c.utf8Size = 1 := by
        rcases h c (List.mem_cons_self c rest) with hc | hc <;> subst hc <;> decide
      simp only [utf8Len, List.map_cons, List.sum_cons, List.length_cons, hsize] at *
      omega

/-- Rendered bit lists measure one byte per bit. -/
theorem utf8Len_bits_to_str (bits : List Bool) :
    utf8Len (bits_to_str bits) = bits.length := by
  induction bits with
  | nil => rfl
  | cons b rest ih =>
      have hsize : (if b then '1' else '0').utf8Size = 1 := by cases b <;> decide
      simp only [bits_to_str, utf8Len, List.map_cons, List.sum_cons,
        List.length_cons, hsize] at *
      omega

/-- Unpacking a byte always yields 8 bits. -/
theorem byte_to_bits_length (b : Nat) : (byte_to_bits b).length = 8 := by
  simp [byte_to_bits, BYTE_SIZE]

/-- Packing then unpacking is the identity on all 256 byte values. -/
theorem bits_to_byte_byte_to_bits (b : Nat) (h : b < 256) :
    bits_to_byte (byte_to_bits b) = b := by
  revert b h
  decide

/-- Unpacking then packing is the identity on every 8-bit group. -/
theorem byte_to_bits_bits_to_byte_eight :
    ∀ a0 a1 a2 a3 a4 a5 a6 a7 : Bool,
      byte_to_bits (bits_to_byte [a0, a1, a2, a3, a4, a5, a6, a7])
        = [a0, a1, a2, a3, a4, a5, a6, a7] := by
  decide

/-- Unpacking then packing is the identity on lists of exactly 8 bits. -/
theorem byte_to_bits_bits_to_byte (l : List Bool) (h : l.length = 8) :
    byte_to_bits (bits_to_byte l) = l := by
  match l, h with
  | [a0, a1, a2, a3, a4, a5, a6, a7], _ =>
      exact byte_to_bits_bits_to_byte_eight a0 a1 a2 a3 a4 a5 a6 a7

/-- The bit stream of a message is 8 bits per byte. -/
theorem flatMap_byte_to_bits_length (msg : List Nat) :
    (msg.flatMap (fun b => byte_to_bits b)).length = 8 * msg.length := by
  induction msg with
  | nil => rfl
  | cons b rest ih =>
      simp [List.flatMap_cons, byte_to_bits_length, ih]
      omega

/-- Characterization of `BinMsg::read` when the byte length is not a multiple
of 8: the length check fires first and reports the byte length, regardless of
the characters in the input. -/
theorem read_invalidLength (s : List Char) (h : utf8Len s % 8 ≠ 0) :
    BinMsg.read s = .error (.invalidLength 8 (utf8Len s)) := by
  simp only [BinMsg.read, BYTE_SIZE]
  rw [if_pos h]

/-- Characterization of `BinMsg::read` on a well-formed digit string. -/
theorem read_valid (s : List Char) (hs : ∀ c ∈ s, c = '0' ∨ c = '1')
    (hlen : s.length % 8 = 0) :
    BinMsg.read s
      = .ok ((bit_slice_to_arrays (s.map (fun c => c == '1'))).map
          (fun bits => bits_to_byte bits)) := by
  simp only [BinMsg.read, BYTE_SIZE]
  rw [utf8Len_valid s hs, if_neg (by omega), str_to_bits_valid s hs]
  rfl

/-- Reading back what `BinMsg::write` produced recovers the message. -/
theorem read_write (msg : List Nat) (hb : ∀ b ∈ msg, b < 256) :
    BinMsg.read (BinMsg.write msg) = .ok msg := by
  show BinMsg.read (bits_to_str (msg.flatMap (fun b => byte_to_bits b))) = .ok msg
  simp only [BinMsg.read, BYTE_SIZE, utf8Len_bits_to_str, flatMap_byte_to_bits_length]
  rw [if_neg (by omega), str_to_bits_bits_to_str]
  simp only [Except.map]
  rw [List.flatMap_def,
    bit_slice_to_arrays_of_join (msg.map (fun b => byte_to_bits b))
      (by intro l hl
          rcases List.mem_map.1 hl with ⟨b, _, rfl⟩
          exact byte_to_bits_length b),
    List.map_map]
  have hmsg : msg.map ((fun bits => bits_to_byte bits) ∘ fun b => byte_to_bits b)
      = msg.map id :=
    List.map_congr_left (fun b hbm => bits_to_byte_byte_to_bits b (hb b hbm))
  rw [hmsg, List.map_id]

/-- Writing what `BinMsg::read` parsed reproduces the digit string. -/
theorem write_read (s : List Char) (hs : ∀ c ∈ s, c = '0' ∨ c = '1')
    (hlen : s.length % 8 = 0) :
    BinMsg.write
      ((bit_slice_to_arrays (s.map (fun c => c == '1'))).map
        (fun bits => bits_to_byte bits)) = s := by
  show bits_to_str (List.flatMap _ _) = s
  rw [List.flatMap_def, List.map_map]
  have hmap :
      (bit_slice_to_arrays (s.map (fun c => c == '1'))).map
        ((fun b => byte_to_bits b) ∘ fun bits => bits_to_byte bits)
      = (bit_slice_to_arrays (s.map (fun c => c == '1'))).map id :=
    List.map_congr_left
      (fun l hl => byte_to_bits_bits_to_byte l
        (bit_slice_to_arrays_mem_length _ l hl))
  rw [hmap, List.map_id,
    join_bit_slice_to_arrays _ (by rw [List.length_map]; exact hlen)]
  exact bits_to_str_valid s hs

/-- A UTF-8 encoding is never empty. -/
theorem utf8EncodeChar_shape (c : Nat) : ∃ b bs, utf8EncodeChar c = b :: bs := by
  unfold utf8EncodeChar
  split_ifs <;> exact ⟨_, _, rfl⟩

/-- Decoding the encoding of a scalar value from the front of a byte stream
recovers the value and the remaining bytes. -/
theorem utf8DecodeChar_utf8EncodeChar (c : Nat) (h : isScalarValue c)
    (rest : List Nat) :
    utf8DecodeChar (utf8EncodeChar c ++ rest) = some (c, rest) := by
  have hsc : c < 0xD800 ∨ (0xE000 ≤ c ∧ c < 0x110000) := h
  by_cases h1 : c < 0x80
  · simp only [utf8EncodeChar, if_pos h1, List.cons_append, List.nil_append,
      utf8DecodeChar, if_pos h1]
  · by_cases h2 : c < 0x800
    · simp only [utf8EncodeChar, if_neg h1, if_pos h2, List.cons_append,
        List.nil_append, utf8DecodeChar]
      rw [if_neg (by omega), if_neg (by omega), if_pos (by omega),
        if_pos (by omega)]
      have harith : (0xC0 + c / 0x40 - 0xC0) * 0x40 + (0x80 + c % 0x40 - 0x80)
          = c := by omega
      rw [harith]
    · by_cases h3 : c < 0x10000
      · simp only [utf8EncodeChar, if_neg h1, if_neg h2, if_pos h3,
          List.cons_append, List.nil_append, utf8DecodeChar]
        rw [if_neg (by omega), if_neg (by omega), if_neg (by omega),
          if_pos (by omega), if_pos (by omega), if_neg (by omega)]
        have harith : (0xE0 + c / 0x1000 - 0xE0) * 0x1000
            + (0x80 + c / 0x40 % 0x40 - 0x80) * 0x40
            + (0x80 + c % 0x40 - 0x80) = c := by omega
        rw [harith]
      · simp only [utf8EncodeChar, if_neg h1, if_neg h2, if_neg h3,
          List.cons_append, List.nil_append, utf8DecodeChar]
        rw [if_neg (by omega), if_neg (by omega), if_neg (by omega),
          if_neg (by omega), if_pos (by omega), if_pos (by omega),
          if_neg (by omega)]
        have harith : (0xF0 + c / 0x40000 - 0xF0) * 0x40000
            + (0x80 + c / 0x1000 % 0x40 - 0x80) * 0x1000
            + (0x80 + c / 0x40 % 0x40 - 0x80) * 0x40
            + (0x80 + c % 0x40 - 0x80) = c := by omega
        rw [harith]

/-- Decoding the concatenated encodings of a scalar-value sequence recovers
the sequence, for any sufficient fuel. -/
theorem utf8Decode_fromStrMsg (s : List Nat) : ∀ (fuel : Nat),
    (∀ c ∈ s, isScalarValue c) → (BinMsg.fromStrMsg s).length ≤ fuel →
    utf8Decode fuel (BinMsg.fromStrMsg s) = some s := by
  induction s with
  | nil =>
      intro fuel _ _
      cases fuel <;> rfl
  | cons c cs ih =>
      intro fuel hval hlen
      have hc : isScalarValue c := hval c (List.mem_cons_self c cs)
      have hcs : ∀ c' ∈ cs, isScalarValue c' :=
        fun c' hc' => hval c' (List.mem_cons_of_mem c hc')
      obtain ⟨b, bs, hb⟩ := utf8EncodeChar_shape c
      have hsplit : BinMsg.fromStrMsg (c :: cs)
          = utf8EncodeChar c ++ BinMsg.fromStrMsg cs := by
        simp [BinMsg.fromStrMsg]
      rw [hsplit] at hlen ⊢
      have henclen : (utf8EncodeChar c).length = bs.length + 1 := by
        rw [hb]; rfl
      rw [List.length_append] at hlen
      cases fuel with
      | zero => omega
      | succ fuel =>
          rw [hb, List.cons_append]
          have hdec : utf8DecodeChar (b :: (bs ++ BinMsg.fromStrMsg cs))
              = some (c, BinMsg.fromStrMsg cs) := by
            rw [← List.cons_append, ← hb]
            exact utf8DecodeChar_utf8EncodeChar c hc _
          have hbound : (BinMsg.fromStrMsg cs).length ≤ fuel := by omega
          simp only [utf8Decode]
          rw [hdec]
          show (match utf8Decode fuel (BinMsg.fromStrMsg cs) with
            | some cs => some (c :: cs)
            | none => none) = some (c :: cs)
          rw [ih fuel hcs hbound]

/-- The parser stops at the first character outside the binary digits and
reports it, whatever follows. -/
theorem str_to_bits_first_invalid (pre : List Char) (c : Char) (suf : List Char)
    (hpre : ∀ c' ∈ pre, c' = '0' ∨ c' = '1') (h0 : c ≠ '0') (h1 : c ≠ '1') :
    str_to_bits (pre ++ c :: suf) = .error (.invalidDigit c) := by
  induction pre with
  | nil => simp [str_to_bits, h0, h1]
  | cons d pre ih =>
      have hd := hpre d (List.mem_cons_self d pre)
      have hrest : ∀ c' ∈ pre, c' = '0' ∨ c' = '1' :=
        fun c' h' => hpre c' (List.mem_cons_of_mem d h')
      rcases hd with hd | hd <;> subst hd <;>
        simp [str_to_bits, ih hrest, Except.map]

/-! Claim theorems. -/

/-- Claim C1: write is the exact inverse of read. Reading the digit string
written from any byte sequence succeeds and yields the bytes again, and on
any well-formed digit string (binary digits only, length a multiple of 8)
reading succeeds and writing the resulting message reproduces the string
exactly. -/
theorem read_write_exact_inverse :
    (∀ msg : List Nat, (∀ b ∈ msg, b < 256) →
        BinMsg.read (BinMsg.write msg) = .ok msg) ∧
    (∀ s : List Char, (∀ c ∈ s, c = '0' ∨ c = '1') → s.length % 8 = 0 →
        ∃ msg, BinMsg.read s = .ok msg ∧ BinMsg.write msg = s) := by
  constructor
  · exact read_write
  · intro s hs hlen
    exact ⟨_, read_valid s hs hlen, write_read s hs hlen⟩

/-- Witness for C1 at the byte sequence `[1, 2]` and the digit string
"00000001". -/
theorem read_write_exact_inverse_witness :
    BinMsg.read (BinMsg.write [1, 2]) = .ok [1, 2] ∧
    ∃ msg, BinMsg.read "00000001".toList = .ok msg ∧
      BinMsg.write msg = "00000001".toList :=
  ⟨read_write_exact_inverse.1 [1, 2] (by decide),
   read_write_exact_inverse.2 "00000001".toList (by decide) (by decide)⟩

/-- Claim C2: unpacking a byte into its 8 bits and folding them back is the
identity on all 256 byte values. -/
theorem bits_to_byte_byte_to_bits_all (b : Nat) (h : b < 256) :
    bits_to_byte (byte_to_bits b) = b :=
  bits_to_byte_byte_to_bits b h

/-- Witness for C2 at byte value 97. -/
theorem bits_to_byte_byte_to_bits_all_witness :
    bits_to_byte (byte_to_bits 97) = 97 :=
  bits_to_byte_byte_to_bits_all 97 (by decide)

/-- Claim C3 (evaluation at the failing input): `strip_trailing_whitespace`
leaves the byte vector `[0x61, 0x0D]` ("a\r") unchanged, so the result still
ends with a carriage-return byte, contrary to the function's own doc comment;
a trailing newline byte is removed as expected. -/
theorem strip_leaves_trailing_carriage_return :
    strip_trailing_whitespace [0x61, 0x0D] = [0x61, 0x0D] ∧
    strip_trailing_whitespace [0x61, 0x0A] = [0x61] := by decide

/-- Claim C4: the length check happens first and reports the (UTF-8 byte)
length, before any digit validation: a 7-character string fails with
`InvalidLength`, eight zeros succeed producing byte 0, and a wrong-length
string containing invalid digits still reports `InvalidLength`. -/
theorem read_length_check_first :
    (∀ s : List Char, utf8Len s % 8 ≠ 0 →
        BinMsg.read s = .error (.invalidLength 8 (utf8Len s))) ∧
    BinMsg.read "0000000".toList = .error (.invalidLength 8 7) ∧
    BinMsg.read "00000000".toList = .ok [0] ∧
    BinMsg.read "00x0a!0".toList = .error (.invalidLength 8 7) :=
  ⟨read_invalidLength, by decide, by decide, by decide⟩

/-- Witness for C4 at a 9-character string. -/
theorem read_length_check_first_witness :
    BinMsg.read "000000000".toList
      = .error (.invalidLength 8 (utf8Len "000000000".toList)) :=
  read_length_check_first.1 "000000000".toList (by decide)

/-- Claim C5: converting a text message to a byte message is total (a plain
function) and converting back succeeds with exactly the original text: the
StrMsg to BinMsg to StrMsg round trip is lossless for every sequence of
unicode scalar values. -/
theorem strMsg_binMsg_strMsg_lossless (s : List Nat)
    (h : ∀ c ∈ s, isScalarValue c) :
    StrMsg.tryFromBinMsg (BinMsg.fromStrMsg s) = some s :=
  utf8Decode_fromStrMsg s (BinMsg.fromStrMsg s).length h (le_refl _)

/-- Witness for C5 at the text "hé中😂" (codepoints 104, 233, 20013,
128514: one-, two-, three- and four-byte UTF-8 encodings). -/
theorem strMsg_binMsg_strMsg_lossless_witness :
    StrMsg.tryFromBinMsg (BinMsg.fromStrMsg [104, 233, 20013, 128514])
      = some [104, 233, 20013, 128514] :=
  strMsg_binMsg_strMsg_lossless [104, 233, 20013, 128514] (by decide)

/-- Claim C6: `str_to_bits` maps '1' to true and '0' to false in order, and on
any input whose first offending character is outside the binary digits it
fails fast with `InvalidDigit` naming that character and producing no output;
in particular "1x0" fails with `InvalidDigit('x')`. -/
theorem str_to_bits_fail_fast :
    (∀ s : List Char, (∀ c ∈ s, c = '0' ∨ c = '1') →
        str_to_bits s = .ok (s.map (fun c => c == '1'))) ∧
    (∀ (pre : List Char) (c : Char) (suf : List Char),
        (∀ c' ∈ pre, c' = '0' ∨ c' = '1') → c ≠ '0' → c ≠ '1' →
        str_to_bits (pre ++ c :: suf) = .error (.invalidDigit c)) ∧
    str_to_bits "1x0".toList = .error (.invalidDigit 'x') :=
  ⟨str_to_bits_valid, str_to_bits_first_invalid, by decide⟩

/-- Witness for C6 at "10" and at the split "1" ++ "x" ++ "0". -/
theorem str_to_bits_fail_fast_witness :
    str_to_bits ['1', '0'] = .ok [true, false] ∧
    str_to_bits (['1'] ++ 'x' :: ['0']) = .error (.invalidDigit 'x') :=
  ⟨str_to_bits_fail_fast.1 ['1', '0'] (by decide),
   str_to_bits_fail_fast.2.1 ['1'] 'x' ['0'] (by decide) (by decide) (by decide)⟩

/-- Claim C7: `byte_to_bits` is total and MSB-first: for every byte and every
index below 8, the bit at index i is bit (7 - i) of the byte, so index 0
holds the 128's place; and `bits_to_byte` folds the 8 bits back with the same
MSB-first weights. -/
theorem byte_to_bits_msb_first :
    (∀ b < 256, ∀ i < 8, (byte_to_bits b).getD i false = b.testBit (7 - i)) ∧
    (∀ a0 a1 a2 a3 a4 a5 a6 a7 : Bool,
        bits_to_byte [a0, a1, a2, a3, a4, a5, a6, a7]
          = 128 * (cond a0 1 0) + 64 * (cond a1 1 0) + 32 * (cond a2 1 0)
            + 16 * (cond a3 1 0) + 8 * (cond a4 1 0) + 4 * (cond a5 1 0)
            + 2 * (cond a6 1 0) + (cond a7 1 0)) := by
  constructor
  · decide
  · decide

/-- Witness for C7 at byte 97 and index 0 (the 128's place), and at the bit
pattern of 130. -/
theorem byte_to_bits_msb_first_witness :
    (byte_to_bits 97).getD 0 false = (97 : Nat).testBit 7 ∧
    bits_to_byte [true, false, false, false, false, false, true, false]
      = 128 * 1 + 64 * 0 + 32 * 0 + 16 * 0 + 8 * 0 + 4 * 0 + 2 * 1 + 0 :=
  ⟨byte_to_bits_msb_first.1 97 (by decide) 0 (by decide),
   byte_to_bits_msb_first.2 true false false false false false true false⟩

/-- Claim C8: the concrete vectors. "01100001" reads as byte 0x61,
"0110000101100010" as bytes 0x61 and 0x62, "0000000100000010" as bytes 1 and
2, and writing bytes 1 and 2 produces exactly "0000000100000010". -/
theorem concrete_vectors :
    BinMsg.read "01100001".toList = .ok [0x61] ∧
    BinMsg.read "0110000101100010".toList = .ok [0x61, 0x62] ∧
    BinMsg.read "0000000100000010".toList = .ok [1, 2] ∧
    BinMsg.write [1, 2] = "0000000100000010".toList := by decide

/-- Claim C9: `BinMsg::read` measures the input in UTF-8 bytes, not
characters: whenever the byte length is not a multiple of 8 it fails with
`InvalidLength` reporting the byte count, and the 8-character string
"0000000é" (9 bytes) is such an input even though its character count is a
multiple of 8. -/
theorem read_counts_utf8_bytes :
    (∀ s : List Char, utf8Len s % 8 ≠ 0 →
        BinMsg.read s = .error (.invalidLength 8 (utf8Len s))) ∧
    ("0000000é".toList.length % 8 = 0 ∧ utf8Len "0000000é".toList = 9 ∧
      BinMsg.read "0000000é".toList = .error (.invalidLength 8 9)) :=
  ⟨read_invalidLength, by decide, by decide, by decide⟩

/-- Witness for C9 at the 2-character, 3-byte string "0é". -/
theorem read_counts_utf8_bytes_witness :
    BinMsg.read "0é".toList
      = .error (.invalidLength 8 (utf8Len "0é".toList)) :=
  read_counts_utf8_bytes.1 "0é".toList (by decide)

/-- Claim C10: the chunker is total on every bit sequence and silently
discards a trailing remainder shorter than 8: it returns exactly
`len / 8` groups, each of 8 bits, whose concatenation is the first
`8 * (len / 8)` bits in original order. -/
theorem bit_slice_to_arrays_total_chunking :
    ∀ l : List Bool,
      (bit_slice_to_arrays l).length = l.length / 8 ∧
      (∀ c ∈ bit_slice_to_arrays l, c.length = 8) ∧
      (bit_slice_to_arrays l).flatten = l.take (8 * (l.length / 8)) :=
  fun l => ⟨bit_slice_to_arrays_length l, bit_slice_to_arrays_mem_length l,
    bit_slice_to_arrays_join l⟩

/-- Witness for C10 at a 9-bit sequence, whose last bit is discarded. -/
theorem bit_slice_to_arrays_total_chunking_witness :
    (bit_slice_to_arrays (List.replicate 9 true)).length
        = (List.replicate 9 true).length / 8 ∧
      (∀ c ∈ bit_slice_to_arrays (List.replicate 9 true), c.length = 8) ∧
      (bit_slice_to_arrays (List.replicate 9 true)).flatten
        = (List.replicate 9 true).take (8 * ((List.replicate 9 true).length / 8)) :=
  bit_slice_to_arrays_total_chunking (List.replicate 9 true)

end Binstr
